import Mathlib

/-!
Verification development for the go-cosmic-backfiring analyzer
(the SSA-based tool in the repository: rule-table call classification,
entry-point detection, static DFS traversal, pointer-callgraph BFS,
and aggregation into an Output record).

The Go source is embedded shallowly: SSA functions become `Func` records
identified by a numeric id, call instructions become `CallSite` records,
the global rule tables become list-valued tables, and the two traversal
loops become a single generic worklist function instantiated with a
stack discipline (static DFS) and a queue discipline (callgraph BFS).
-/

/-- Instruction kind of a call site: a synchronous call, a deferred call,
or a go statement.  The analyzer treats all three identically (it only
extracts the common call data), so no definition below inspects the kind. -/
inductive CallKind
  | call
  | deferCall
  | goCall
deriving DecidableEq, Repr

/-- Argument value of a call, as far as the analyzer inspects it:
a direct function reference, a closure (MakeClosure) wrapping a function,
or anything else. -/
inductive Value
  | funcRef (f : ℕ)
  | makeClosure (f : ℕ)
  | other
deriving DecidableEq, Repr

/-- One call instruction: its kind, the statically determined callee
(if any), and its argument values. -/
structure CallSite where
  kind : CallKind
  staticCallee : Option ℕ
  args : List Value
deriving DecidableEq, Repr

/-- An SSA function object: numeric identity, defining package path,
name, whether it is a named package-level member (members get local
counts; anonymous functions and functions of packages that were not
loaded from source do not), and its call sites. -/
structure Func where
  id : ℕ
  pkgPath : String
  name : String
  isMember : Bool
  callSites : List CallSite
deriving DecidableEq, Repr

/-- The program model: the universe of SSA function objects. -/
structure Program where
  funcs : List Func
deriving DecidableEq, Repr

/-- Look a function up by identity. -/
def Program.find (P : Program) (n : ℕ) : Option Func :=
  P.funcs.find? (fun f => f.id == n)

/-- The set of function identities present in the program model. -/
def Program.ids (P : Program) : Finset ℕ :=
  (P.funcs.map Func.id).toFinset

/-- Rule table shape: package path paired with the function names listed
under that package (the Go source uses map of path to set of names). -/
abbrev RuleTable := List (String × List String)

/-- Registration functions which take a handler function value. -/
def entryRegistrations : RuleTable :=
  [("net/http", ["HandleFunc", "Handle"]),
   ("github.com/gorilla/mux", ["HandleFunc", "Handle"])]

/-- Read-like functions by package path. -/
def readFuncs : RuleTable :=
  [("os", ["Open", "ReadFile"]),
   ("io/ioutil", ["ReadFile"]),
   ("database/sql", ["Query", "QueryRow", "Scan"])]

/-- Write-like functions by package path. -/
def writeFuncs : RuleTable :=
  [("os", ["Create", "WriteFile"]),
   ("io/ioutil", ["WriteFile"]),
   ("database/sql", ["Exec"])]

/-- Exit-like functions by package path. -/
def exitFuncs : RuleTable :=
  [("os", ["Exit"])]

/-- Suffix test on strings (the strings.HasSuffix of the Go standard
library), computed on the character lists so that it evaluates by
kernel reduction. -/
def strEndsWith (s post : String) : Bool :=
  post.data.isSuffixOf s.data

/-- Exact rule-table lookup: find the entry for the package path and
check the name against the listed names (the Go map lookup followed by
the set membership test). -/
def tableMatch (tbl : RuleTable) (p n : String) : Bool :=
  match tbl.find? (fun e => e.1 == p) with
  | some e => e.2.contains n
  | none => false

/-- isRegistrationFunction, parameterized by the registration table:
first the exact (package, name) lookup, then the fallback suffix
heuristic over the combined "path.name" string and the bare name. -/
def isRegistrationFunctionT (tbl : RuleTable) (f : Func) : Bool :=
  if tableMatch tbl f.pkgPath f.name then true
  else
    let combined := f.pkgPath ++ "." ++ f.name
    tbl.any (fun e => e.2.any (fun mn =>
      strEndsWith combined (e.1 ++ "." ++ mn) || strEndsWith f.name mn))

/-- isRegistrationFunction with the concrete table of the source. -/
def isRegistrationFunction (f : Func) : Bool :=
  isRegistrationFunctionT entryRegistrations f

/-- matchesRead, parameterized by the read table: exact lookup, then the
fallback comparison of the bare name against the read name list. -/
def matchesReadT (tbl : RuleTable) (f : Func) : Bool :=
  if tableMatch tbl f.pkgPath f.name then true
  else f.name == "Read" || f.name == "Scan" || f.name == "Query" || f.name == "QueryRow"

/-- matchesRead with the concrete table of the source. -/
def matchesRead (f : Func) : Bool := matchesReadT readFuncs f

/-- matchesWrite, parameterized by the write table. -/
def matchesWriteT (tbl : RuleTable) (f : Func) : Bool :=
  if tableMatch tbl f.pkgPath f.name then true
  else f.name == "Write" || f.name == "WriteString" || f.name == "Encode"
    || f.name == "Respond" || f.name == "Print" || f.name == "Printf"

/-- matchesWrite with the concrete table of the source. -/
def matchesWrite (f : Func) : Bool := matchesWriteT writeFuncs f

/-- matchesExit, parameterized by the exit table. -/
def matchesExitT (tbl : RuleTable) (f : Func) : Bool :=
  if tableMatch tbl f.pkgPath f.name then true
  else f.pkgPath == "os" && f.name == "Exit"

/-- matchesExit with the concrete table of the source. -/
def matchesExit (f : Func) : Bool := matchesExitT exitFuncs f

/-- extractFunctionFromValue: a direct function reference or a closure
wrapping a function yields that function; anything else yields nothing. -/
def extractFunctionFromValue : Value → Option ℕ
  | .funcRef f => some f
  | .makeClosure f => some f
  | .other => none

/-- The Counts accumulator of the scanning loop. -/
structure Counts where
  entries : ℕ := 0
  exits : ℕ := 0
  reads : ℕ := 0
  writes : ℕ := 0
deriving DecidableEq, Repr

/-- Componentwise addition of counts. -/
def addCounts (a b : Counts) : Counts :=
  ⟨a.entries + b.entries, a.exits + b.exits, a.reads + b.reads, a.writes + b.writes⟩

/-- Resolve the static callee of a call site to its Func record. -/
def findCallee (P : Program) (cs : CallSite) : Option Func :=
  cs.staticCallee.bind P.find

/-- Whether a call site is a registration call: its static callee exists
and is classified as a registration function. -/
def regSite (P : Program) (cs : CallSite) : Bool :=
  match findCallee P cs with
  | some sc => isRegistrationFunction sc
  | none => false

/-- Contribution of a single call site to the local counts of its owning
function: nothing when the callee is not statically known; otherwise one
per category that classifies the callee (the categories are independent,
so one site may count in several). -/
def siteCounts (P : Program) (cs : CallSite) : Counts :=
  match findCallee P cs with
  | none => {}
  | some sc =>
    { entries := if isRegistrationFunction sc then 1 else 0,
      exits := if matchesExit sc then 1 else 0,
      reads := if matchesRead sc then 1 else 0,
      writes := if matchesWrite sc then 1 else 0 }

/-- Local counts of one function: the fold of the scanning loop over its
own call sites. -/
def computeCounts (P : Program) (f : Func) : Counts :=
  f.callSites.foldl (fun c cs => addCounts c (siteCounts P cs)) {}

/-- The localCounts map: only named package-level members receive an
entry (the scan iterates package members only). -/
def localCounts (P : Program) (n : ℕ) : Option Counts :=
  match P.find n with
  | some f => if f.isMember then some (computeCounts P f) else none
  | none => none

/-- Lookup in the localCounts map, defaulting to zero counts when the
function has no entry (the ok-guarded map access of the Go source). -/
def lookCounts (P : Program) (n : ℕ) : Counts :=
  (localCounts P n).getD {}

/-- Handler functions extracted from the arguments of one call site,
when that site is a registration call. -/
def handlersOfSite (P : Program) (cs : CallSite) : List ℕ :=
  match findCallee P cs with
  | some sc =>
    if isRegistrationFunction sc then cs.args.filterMap extractFunctionFromValue
    else []
  | none => []

/-- The entry list produced by the scanning loop: for every package
member, the main entry (package path "main", name "main") and every
handler extracted from its registration call sites. -/
def entryList (P : Program) : List ℕ :=
  P.funcs.foldr (fun f acc =>
    if f.isMember then
      (if f.pkgPath == "main" && f.name == "main" then [f.id] else [])
        ++ f.callSites.foldr (fun cs a => handlersOfSite P cs ++ a) [] ++ acc
    else acc) []

/-- The entry set (set semantics: discovery is idempotent). -/
def entrySet (P : Program) : Finset ℕ := (entryList P).toFinset

/-- One per-entry report: name, source locus, the four summed metrics and
the distinct-function counter. -/
structure ProcessReport where
  name : String
  source : String
  entries : ℕ
  exits : ℕ
  reads : ℕ
  writes : ℕ
  funcs : ℕ
deriving DecidableEq, Repr

/-- The state update applied when the traversal visits a function for
the first time: add the (defaulted) local counts and bump the
distinct-function counter. -/
def visitUpd (look : ℕ → Counts) (pr : ProcessReport) (n : ℕ) : ProcessReport :=
  { pr with
    entries := pr.entries + (look n).entries,
    exits := pr.exits + (look n).exits,
    reads := pr.reads + (look n).reads,
    writes := pr.writes + (look n).writes,
    funcs := pr.funcs + 1 }

/-- Generic worklist traversal shared by the static DFS (stack order)
and the callgraph BFS (queue order).  Pops the next work item; an
already visited item is dropped; a new item is marked visited, its
counts accumulated, and its not-yet-visited successors combined into
the remaining work by the order discipline comb.  The universe guard
keeps the recursion well founded; for well-formed inputs every work
item lies in the universe, so the final branch never runs. -/
def worklist (U : Finset ℕ) (succs : ℕ → List ℕ) (comb : List ℕ → List ℕ → List ℕ)
    (look : ℕ → Counts) (visited : Finset ℕ) (work : List ℕ) (pr : ProcessReport) :
    Finset ℕ × ProcessReport :=
  match work with
  | [] => (visited, pr)
  | n :: rest =>
    if n ∈ visited then
      worklist U succs comb look visited rest pr
    else if hn : n ∈ U then
      worklist U succs comb look (insert n visited)
        (comb ((succs n).filter (fun c => decide (c ∉ insert n visited))) rest)
        (visitUpd look pr n)
    else
      worklist U succs comb look visited rest pr
termination_by ((U \ visited).card, work.length)
decreasing_by
  · exact Prod.Lex.right _ (Nat.lt_succ_self _)
  · refine Prod.Lex.left _ _ (Finset.card_lt_card ?_)
    refine (Finset.ssubset_iff_of_subset
      (Finset.sdiff_subset_sdiff (Finset.Subset.refl U) (Finset.subset_insert n visited))).mpr
      ⟨n, Finset.mem_sdiff.mpr ⟨hn, by assumption⟩, by simp [Finset.mem_sdiff]⟩
  · exact Prod.Lex.right _ (Nat.lt_succ_self _)

/-- Static DFS order: new items go on top of the stack; reversing
mirrors the push-to-array-end, pop-from-array-end order of the source. -/
def combStack (a b : List ℕ) : List ℕ := a.reverse ++ b

/-- BFS order: new items are appended at the back of the queue. -/
def combQueue (a b : List ℕ) : List ℕ := b ++ a

/-- Static callee successors of a function: the statically determined
callees of its call sites. -/
def staticSuccs (P : Program) (n : ℕ) : List ℕ :=
  match P.find n with
  | some f => f.callSites.filterMap (fun cs => cs.staticCallee)
  | none => []

/-- Initial report for a root: its name and source locus, zero counts. -/
def initReport (P : Program) (fn : ℕ) : ProcessReport :=
  match P.find fn with
  | some f => ⟨f.pkgPath ++ "." ++ f.name, f.pkgPath ++ "." ++ f.name, 0, 0, 0, 0, 0⟩
  | none => ⟨"", "", 0, 0, 0, 0, 0⟩

/-- traverseStatic with its final visited set exposed. -/
def traverseStaticFull (P : Program) (fn : ℕ) : Finset ℕ × ProcessReport :=
  worklist P.ids (staticSuccs P) combStack (lookCounts P) ∅ [fn] (initReport P fn)

/-- traverseStatic: the per-entry report of the static strategy. -/
def traverseStatic (P : Program) (fn : ℕ) : ProcessReport :=
  (traverseStaticFull P fn).2

/-- Invariant of the loop: every successor of a visited function is
itself visited or still on the worklist. -/
def OkInv (succs : ℕ → List ℕ) (v : Finset ℕ) (work : List ℕ) : Prop :=
  ∀ n ∈ v, ∀ c ∈ succs n, c ∈ v ∨ c ∈ work

/-- The precomputed whole-program callgraph: nodes keyed by function
identity, each carrying its list of outgoing callee identities. -/
structure CallGraph where
  nodeList : List (ℕ × List ℕ)
deriving DecidableEq, Repr

/-- The set of function identities that have a callgraph node (the
funcToNode map of the source). -/
def nodeIds (g : CallGraph) : Finset ℕ :=
  (g.nodeList.map Prod.fst).toFinset

/-- Outgoing callee identities of a node. -/
def succsOf (g : CallGraph) (n : ℕ) : List ℕ :=
  match g.nodeList.find? (fun e => e.1 == n) with
  | some e => e.2
  | none => []

/-- Whole-program per-entry traversal with the visited set exposed:
BFS over the callgraph when the entry has a node, otherwise the static
fallback traversal. -/
def wpProcessFull (P : Program) (g : CallGraph) (fn : ℕ) : Finset ℕ × ProcessReport :=
  if fn ∈ nodeIds g then
    worklist (nodeIds g) (succsOf g) combQueue (lookCounts P) ∅ [fn] (initReport P fn)
  else traverseStaticFull P fn

/-- Whole-program per-entry report. -/
def wpProcess (P : Program) (g : CallGraph) (fn : ℕ) : ProcessReport :=
  (wpProcessFull P g fn).2

/-- The overall JSON structure: totals plus the ordered reports. -/
structure Output where
  totalEntries : ℕ
  totalExits : ℕ
  totalReads : ℕ
  totalWrites : ℕ
  processes : List ProcessReport
deriving DecidableEq, Repr

/-- Appending one report to the output: the report is appended to the
process list and its four metrics are added to the running totals. -/
def addReport (o : Output) (pr : ProcessReport) : Output :=
  { totalEntries := o.totalEntries + pr.entries,
    totalExits := o.totalExits + pr.exits,
    totalReads := o.totalReads + pr.reads,
    totalWrites := o.totalWrites + pr.writes,
    processes := o.processes ++ [pr] }

/-- The empty output. -/
def emptyOutput : Output := ⟨0, 0, 0, 0, []⟩

/-- Building the output by folding the per-entry reports over the entry
enumeration order. -/
def buildOutput (r : ℕ → ProcessReport) (order : List ℕ) : Output :=
  order.foldl (fun o fn => addReport o (r fn)) emptyOutput

/-- The whole analysis after local-count scanning: the strategy flag, the
result of the external whole-program callgraph construction (only
consulted in pointer mode; an error there aborts the run), and the
enumeration order in which the entry set is iterated (Go map iteration
order, unspecified). -/
def run (P : Program) (ptrMode : Bool) (graphRes : Except String CallGraph)
    (order : List ℕ) : Except String Output :=
  if ptrMode then
    match graphRes with
    | .error e => .error e
    | .ok g => .ok (buildOutput (wpProcess P g) order)
  else
    .ok (buildOutput (fun fn => traverseStatic P fn) order)

/-- Well-formed program model: every statically determined callee refers
to a function object of the model (in Go, a static callee is by
construction an existing SSA function object). -/
def wfProgram (P : Program) : Bool :=
  P.funcs.all (fun f => f.callSites.all (fun cs =>
    match cs.staticCallee with
    | some c => decide (c ∈ P.ids)
    | none => true))

/-- Well-formed callgraph: every edge target has a node (callgraph edges
point to callgraph nodes by construction). -/
def wfGraph (g : CallGraph) : Bool :=
  g.nodeList.all (fun e => e.2.all (fun c => decide (c ∈ nodeIds g)))

/-- A list enumerates a finite set when it has no duplicates and exactly
the members of the set (one iteration order of a Go map). -/
def IsEnum (order : List ℕ) (s : Finset ℕ) : Prop :=
  order.Nodup ∧ order.toFinset = s

instance (order : List ℕ) (s : Finset ℕ) : Decidable (IsEnum order s) := by
  unfold IsEnum
  infer_instance

/-- Agreement of two outputs up to process order: equal totals and the
same multiset of process reports. -/
def outputAgree (o1 o2 : Output) : Prop :=
  o1.totalEntries = o2.totalEntries ∧ o1.totalExits = o2.totalExits ∧
  o1.totalReads = o2.totalReads ∧ o1.totalWrites = o2.totalWrites ∧
  o1.processes.Perm o2.processes

/-- Dropping all argument values from the call sites of a function (so
that no handler can be extracted from any registration call). -/
def eraseArgs (f : Func) : Func :=
  { f with callSites := f.callSites.map (fun cs => { cs with args := [] }) }

/-- External stub for os.Open (no source loaded, not a member). -/
def osOpenF : Func := ⟨1, "os", "Open", false, []⟩

/-- External stub for fmt.Printf. -/
def fmtPrintfF : Func := ⟨2, "fmt", "Printf", false, []⟩

/-- External stub for os.Exit. -/
def osExitF : Func := ⟨3, "os", "Exit", false, []⟩

/-- The entry function of the C5 scenario: one file-open read call, one
formatted-write call, one process-exit call. -/
def mainFex1 : Func :=
  ⟨0, "main", "main", true,
    [⟨.call, some 1, []⟩, ⟨.call, some 2, []⟩, ⟨.call, some 3, []⟩]⟩

/-- The C5 scenario program. -/
def Pex1 : Program := ⟨[mainFex1, osOpenF, fmtPrintfF, osExitF]⟩

/-- External stub for net/http.HandleFunc. -/
def handleFuncF : Func := ⟨2, "net/http", "HandleFunc", false, []⟩

/-- A named handler function registered by the main routine. -/
def handlerF : Func := ⟨1, "app", "h", true, []⟩

/-- A main routine that registers the handler via net/http.HandleFunc. -/
def mainFex2 : Func := ⟨0, "main", "main", true, [⟨.call, some 2, [.funcRef 1]⟩]⟩

/-- A two-entry program: main plus one registered handler. -/
def Pex2 : Program := ⟨[mainFex2, handlerF, handleFuncF]⟩

/-- A callgraph for Pex2 containing all three functions and the static
edge from main to the registration function. -/
def gEx : CallGraph := ⟨[(0, [2]), (1, []), (2, [])]⟩

/-- A callgraph for Pex2 with no node for the handler (identity 1). -/
def gEx2 : CallGraph := ⟨[(0, [2]), (2, [])]⟩

/-- An anonymous closure body registered as a handler: not a package
member, with one database-query call site. -/
def anonHandlerF : Func := ⟨1, "main", "main$1", false, [⟨.call, some 3, []⟩]⟩

/-- External stub for database/sql Query. -/
def dbQueryF : Func := ⟨3, "database/sql", "Query", false, []⟩

/-- A main routine registering the closure through a MakeClosure
argument. -/
def mainFex3 : Func := ⟨0, "main", "main", true, [⟨.call, some 2, [.makeClosure 1]⟩]⟩

/-- The program of the anonymous-handler scenario. -/
def Pex3 : Program := ⟨[mainFex3, anonHandlerF, handleFuncF, dbQueryF]⟩

/-- Strict shrinking of the unvisited part of the universe when a new
element of the universe is visited (termination measure of the
traversal loops). -/
theorem sdiff_insert_card_lt (U v : Finset ℕ) (n : ℕ) (hU : n ∈ U) (hv : n ∉ v) :
    (U \ insert n v).card < (U \ v).card := by
  apply Finset.card_lt_card
  have h1 : U \ insert n v ⊆ U \ v :=
    Finset.sdiff_subset_sdiff (Finset.Subset.refl U) (Finset.subset_insert n v)
  have h2 : n ∈ U \ v := Finset.mem_sdiff.mpr ⟨hU, hv⟩
  have h3 : n ∉ U \ insert n v := by simp [Finset.mem_sdiff]
  exact (Finset.ssubset_iff_of_subset h1).mpr ⟨n, h2, h3⟩

section WorklistLemmas

variable (U : Finset ℕ) (succs : ℕ → List ℕ) (comb : List ℕ → List ℕ → List ℕ)

variable (look : ℕ → Counts)

/-- Unfolding the traversal on an empty worklist. -/
theorem worklist_nil (v : Finset ℕ) (pr : ProcessReport) :
    worklist U succs comb look v [] pr = (v, pr) := by
  rw [worklist]

/-- Unfolding the traversal when the next item was already visited. -/
theorem worklist_cons_visited (v : Finset ℕ) (n : ℕ) (rest : List ℕ) (pr : ProcessReport)
    (h : n ∈ v) :
    worklist U succs comb look v (n :: rest) pr = worklist U succs comb look v rest pr := by
  rw [worklist]
  simp [h]

/-- Unfolding the traversal when the next item is new and lies in the
universe. -/
theorem worklist_cons_new (v : Finset ℕ) (n : ℕ) (rest : List ℕ) (pr : ProcessReport)
    (h1 : n ∉ v) (h2 : n ∈ U) :
    worklist U succs comb look v (n :: rest) pr =
      worklist U succs comb look (insert n v)
        (comb ((succs n).filter (fun c => decide (c ∉ insert n v))) rest)
        (visitUpd look pr n) := by
  rw [worklist]
  simp [h1, h2]

/-- Unfolding the traversal when the next item falls outside the
universe (never reached on well-formed inputs). -/
theorem worklist_cons_out (v : Finset ℕ) (n : ℕ) (rest : List ℕ) (pr : ProcessReport)
    (h1 : n ∉ v) (h2 : n ∉ U) :
    worklist U succs comb look v (n :: rest) pr = worklist U succs comb look v rest pr := by
  rw [worklist]
  simp [h1, h2]

/-- Induction principle following the recursion structure of the
traversal loop. -/
theorem worklist_rec (motive : Finset ℕ → List ℕ → ProcessReport → Prop)
    (h1 : ∀ v pr, motive v [] pr)
    (h2 : ∀ v n rest pr, n ∈ v → motive v rest pr → motive v (n :: rest) pr)
    (h3 : ∀ v n rest pr, n ∉ v → n ∈ U →
      motive (insert n v)
        (comb ((succs n).filter (fun c => decide (c ∉ insert n v))) rest)
        (visitUpd look pr n) →
      motive v (n :: rest) pr)
    (h4 : ∀ v n rest pr, n ∉ v → n ∉ U → motive v rest pr → motive v (n :: rest) pr) :
    ∀ v work pr, motive v work pr := by
  intro v work pr
  match work with
  | [] => exact h1 v pr
  | n :: rest =>
    by_cases hv : n ∈ v
    · exact h2 v n rest pr hv (worklist_rec motive h1 h2 h3 h4 v rest pr)
    · by_cases hU : n ∈ U
      · exact h3 v n rest pr hv hU (worklist_rec motive h1 h2 h3 h4 (insert n v)
          (comb ((succs n).filter (fun c => decide (c ∉ insert n v))) rest)
          (visitUpd look pr n))
      · exact h4 v n rest pr hv hU (worklist_rec motive h1 h2 h3 h4 v rest pr)
termination_by v work pr => ((U \ v).card, work.length)
decreasing_by
  · exact Prod.Lex.right _ (Nat.lt_succ_self _)
  · exact Prod.Lex.left _ _ (sdiff_insert_card_lt U v n hU hv)
  · exact Prod.Lex.right _ (Nat.lt_succ_self _)

/-- The visited set only grows. -/
theorem worklist_visited_mono :
    ∀ v work pr, v ⊆ (worklist U succs comb look v work pr).1 := by
  apply worklist_rec U succs comb look
    (motive := fun v work pr => v ⊆ (worklist U succs comb look v work pr).1)
  · intro v pr
    rw [worklist_nil]
  · intro v n rest pr h ih
    rw [worklist_cons_visited U succs comb look v n rest pr h]
    exact ih
  · intro v n rest pr h1 h2 ih
    rw [worklist_cons_new U succs comb look v n rest pr h1 h2]
    exact Finset.Subset.trans (Finset.subset_insert n v) ih
  · intro v n rest pr h1 h2 ih
    rw [worklist_cons_out U succs comb look v n rest pr h1 h2]
    exact ih

end WorklistLemmas

section WorklistCorrect

variable (U : Finset ℕ) (succs : ℕ → List ℕ) (comb : List ℕ → List ℕ → List ℕ)

variable (look : ℕ → Counts)

/-- Splitting a set difference at a newly inserted element. -/
theorem sdiff_insert_split (V v : Finset ℕ) (n : ℕ) (hnV : n ∈ V) (hnv : n ∉ v) :
    V \ v = insert n (V \ insert n v) := by
  ext x
  simp only [Finset.mem_sdiff, Finset.mem_insert]
  by_cases hx : x = n
  · subst hx
    simp [hnV, hnv]
  · simp [hx]

/-- Any projection of the final report that the visit update shifts by a
fixed per-function weight equals its initial value plus the weight summed
over the newly visited functions: every visited function contributes
exactly once. -/
theorem worklist_report (f : ProcessReport → ℕ) (g : ℕ → ℕ)
    (hf : ∀ pr n, f (visitUpd look pr n) = f pr + g n) :
    ∀ v work pr,
      f (worklist U succs comb look v work pr).2 =
        f pr + ∑ x ∈ (worklist U succs comb look v work pr).1 \ v, g x := by
  apply worklist_rec U succs comb look
  · intro v pr
    rw [worklist_nil]
    simp
  · intro v n rest pr h ih
    rw [worklist_cons_visited U succs comb look v n rest pr h]
    exact ih
  · intro v n rest pr h1 h2 ih
    rw [worklist_cons_new U succs comb look v n rest pr h1 h2]
    rw [ih, hf]
    have hmono := worklist_visited_mono U succs comb look (insert n v)
      (comb ((succs n).filter (fun c => decide (c ∉ insert n v))) rest)
      (visitUpd look pr n)
    have hnV : n ∈ (worklist U succs comb look (insert n v)
        (comb ((succs n).filter (fun c => decide (c ∉ insert n v))) rest)
        (visitUpd look pr n)).1 := hmono (Finset.mem_insert_self n v)
    rw [sdiff_insert_split _ v n hnV h1]
    rw [Finset.sum_insert (by simp)]
    ring
  · intro v n rest pr h1 h2 ih
    rw [worklist_cons_out U succs comb look v n rest pr h1 h2]
    exact ih

/-- Every function in the final visited set was already visited or is
reachable through successor edges from some work item. -/
theorem worklist_visited_sound
    (hcomb : ∀ (x : ℕ) (a b : List ℕ), x ∈ comb a b ↔ x ∈ a ∨ x ∈ b) :
    ∀ v work pr, ∀ x, x ∈ (worklist U succs comb look v work pr).1 →
      x ∈ v ∨ ∃ y ∈ work, Relation.ReflTransGen (fun a b => b ∈ succs a) y x := by
  apply worklist_rec U succs comb look
  · intro v pr x hx
    rw [worklist_nil] at hx
    exact Or.inl hx
  · intro v n rest pr h ih x hx
    rw [worklist_cons_visited U succs comb look v n rest pr h] at hx
    rcases ih x hx with hv | ⟨y, hy, hr⟩
    · exact Or.inl hv
    · exact Or.inr ⟨y, List.mem_cons_of_mem n hy, hr⟩
  · intro v n rest pr h1 h2 ih x hx
    rw [worklist_cons_new U succs comb look v n rest pr h1 h2] at hx
    rcases ih x hx with hv | ⟨y, hy, hr⟩
    · rcases Finset.mem_insert.mp hv with hxn | hxv
      · exact Or.inr ⟨n, List.mem_cons_self n rest, by rw [hxn]⟩
      · exact Or.inl hxv
    · rcases (hcomb y _ _).mp hy with hyn | hyr
      · have hyn' : y ∈ succs n := (List.mem_filter.mp hyn).1
        exact Or.inr ⟨n, List.mem_cons_self n rest, Relation.ReflTransGen.head hyn' hr⟩
      · exact Or.inr ⟨y, List.mem_cons_of_mem n hyr, hr⟩
  · intro v n rest pr h1 h2 ih x hx
    rw [worklist_cons_out U succs comb look v n rest pr h1 h2] at hx
    rcases ih x hx with hv | ⟨y, hy, hr⟩
    · exact Or.inl hv
    · exact Or.inr ⟨y, List.mem_cons_of_mem n hy, hr⟩

/-- When the invariant holds and every work item lies in the universe,
the final visited set is closed under successor edges. -/
theorem worklist_visited_closed
    (hcomb : ∀ (x : ℕ) (a b : List ℕ), x ∈ comb a b ↔ x ∈ a ∨ x ∈ b)
    (hsucc : ∀ n c, c ∈ succs n → c ∈ U) :
    ∀ v work pr, OkInv succs v work → (∀ x ∈ work, x ∈ U) →
      ∀ n ∈ (worklist U succs comb look v work pr).1, ∀ c ∈ succs n,
        c ∈ (worklist U succs comb look v work pr).1 := by
  apply worklist_rec U succs comb look
    (motive := fun v work pr => OkInv succs v work → (∀ x ∈ work, x ∈ U) →
      ∀ n ∈ (worklist U succs comb look v work pr).1, ∀ c ∈ succs n,
        c ∈ (worklist U succs comb look v work pr).1)
  · intro v pr hinv _ n hn c hc
    rw [worklist_nil] at hn ⊢
    rcases hinv n hn c hc with h | h
    · exact h
    · exact absurd h (List.not_mem_nil c)
  · intro v n rest pr h ih hinv hwk
    rw [worklist_cons_visited U succs comb look v n rest pr h]
    apply ih
    · intro m hm c hc
      rcases hinv m hm c hc with hv | hw
      · exact Or.inl hv
      · rcases List.mem_cons.mp hw with hcn | hcr
        · exact Or.inl (hcn ▸ h)
        · exact Or.inr hcr
    · intro x hx
      exact hwk x (List.mem_cons_of_mem n hx)
  · intro v n rest pr h1 h2 ih hinv hwk
    rw [worklist_cons_new U succs comb look v n rest pr h1 h2]
    apply ih
    · intro m hm c hc
      rcases Finset.mem_insert.mp hm with hmn | hmv
      · subst hmn
        by_cases hcv : c ∈ insert m v
        · exact Or.inl hcv
        · refine Or.inr ((hcomb c _ _).mpr (Or.inl ?_))
          exact List.mem_filter.mpr ⟨hc, by simpa using hcv⟩
      · rcases hinv m hmv c hc with hv | hw
        · exact Or.inl (Finset.mem_insert_of_mem hv)
        · rcases List.mem_cons.mp hw with hcn | hcr
          · exact Or.inl (hcn ▸ Finset.mem_insert_self n v)
          · exact Or.inr ((hcomb c _ _).mpr (Or.inr hcr))
    · intro x hx
      rcases (hcomb x _ _).mp hx with hxn | hxr
      · exact hsucc n x (List.mem_filter.mp hxn).1
      · exact hwk x (List.mem_cons_of_mem n hxr)
  · intro v n rest pr h1 h2 _ _ hwk
    exact absurd (hwk n (List.mem_cons_self n rest)) h2

/-- Starting from an empty visited set, the root itself gets visited. -/
theorem worklist_visits_root (fn : ℕ) (pr : ProcessReport) (hfn : fn ∈ U) :
    fn ∈ (worklist U succs comb look ∅ [fn] pr).1 := by
  rw [worklist_cons_new U succs comb look ∅ fn [] pr (Finset.not_mem_empty fn) hfn]
  exact worklist_visited_mono U succs comb look _ _ _ (Finset.mem_insert_self fn ∅)

/-- Characterization of the traversal from a root: the final visited set
is exactly the set of functions reachable from the root along successor
edges. -/
theorem worklist_visited_char
    (hcomb : ∀ (x : ℕ) (a b : List ℕ), x ∈ comb a b ↔ x ∈ a ∨ x ∈ b)
    (hsucc : ∀ n c, c ∈ succs n → c ∈ U)
    (fn : ℕ) (pr : ProcessReport) (hfn : fn ∈ U) :
    ∀ x, x ∈ (worklist U succs comb look ∅ [fn] pr).1 ↔
      Relation.ReflTransGen (fun a b => b ∈ succs a) fn x := by
  intro x
  constructor
  · intro hx
    rcases worklist_visited_sound U succs comb look hcomb ∅ [fn] pr x hx with hv | ⟨y, hy, hr⟩
    · exact absurd hv (Finset.not_mem_empty x)
    · rcases List.mem_singleton.mp hy with rfl
      exact hr
  · intro hr
    have hclosed := worklist_visited_closed U succs comb look hcomb hsucc ∅ [fn] pr
      (fun n hn => absurd hn (Finset.not_mem_empty n))
      (fun y hy => by rcases List.mem_singleton.mp hy with rfl; exact hfn)
    induction hr with
    | refl => exact worklist_visits_root U succs comb look fn pr hfn
    | tail hab hbc ih => exact hclosed _ ih _ hbc

end WorklistCorrect

/-- Well-formedness transfers to the static successor map. -/
theorem wfProgram_staticSuccs (P : Program) (h : wfProgram P = true) :
    ∀ n c, c ∈ staticSuccs P n → c ∈ P.ids := by
  intro n c hc
  unfold staticSuccs at hc
  cases hfind : P.find n with
  | none => rw [hfind] at hc; exact absurd hc (List.not_mem_nil c)
  | some f =>
    rw [hfind] at hc
    obtain ⟨cs, hcs, hsc⟩ := List.mem_filterMap.mp hc
    have hf : f ∈ P.funcs := List.mem_of_find?_eq_some hfind
    have hall := (List.all_eq_true.mp ((List.all_eq_true.mp h) f hf)) cs hcs
    rw [hsc] at hall
    exact of_decide_eq_true hall

/-- Well-formedness transfers to the callgraph successor map. -/
theorem wfGraph_succsOf (g : CallGraph) (h : wfGraph g = true) :
    ∀ n c, c ∈ succsOf g n → c ∈ nodeIds g := by
  intro n c hc
  unfold succsOf at hc
  cases hfind : g.nodeList.find? (fun e => e.1 == n) with
  | none => rw [hfind] at hc; exact absurd hc (List.not_mem_nil c)
  | some e =>
    rw [hfind] at hc
    have he : e ∈ g.nodeList := List.mem_of_find?_eq_some hfind
    have hall := (List.all_eq_true.mp ((List.all_eq_true.mp h) e he)) c hc
    exact of_decide_eq_true hall

/-- Membership in the stack combination. -/
theorem combStack_mem (x : ℕ) (a b : List ℕ) : x ∈ combStack a b ↔ x ∈ a ∨ x ∈ b := by
  unfold combStack
  simp

/-- Membership in the queue combination. -/
theorem combQueue_mem (x : ℕ) (a b : List ℕ) : x ∈ combQueue a b ↔ x ∈ a ∨ x ∈ b := by
  unfold combQueue
  simp [or_comm]

/-- Characterization of the output fold: totals accumulate the sums of
the four metrics over the enumerated reports, and the process list is
the enumeration order mapped through the per-entry report function. -/
theorem foldl_addReport_spec (r : ℕ → ProcessReport) :
    ∀ (order : List ℕ) (o : Output),
      order.foldl (fun o fn => addReport o (r fn)) o =
        ⟨o.totalEntries + (order.map (fun fn => (r fn).entries)).sum,
         o.totalExits + (order.map (fun fn => (r fn).exits)).sum,
         o.totalReads + (order.map (fun fn => (r fn).reads)).sum,
         o.totalWrites + (order.map (fun fn => (r fn).writes)).sum,
         o.processes ++ order.map r⟩ := by
  intro order
  induction order with
  | nil => intro o; simp
  | cons fn rest ih =>
    intro o
    simp only [List.foldl_cons, List.map_cons, List.sum_cons]
    rw [ih]
    simp [addReport, List.append_assoc]
    omega

/-- The built output, in closed form. -/
theorem buildOutput_spec (r : ℕ → ProcessReport) (order : List ℕ) :
    buildOutput r order =
      ⟨(order.map (fun fn => (r fn).entries)).sum,
       (order.map (fun fn => (r fn).exits)).sum,
       (order.map (fun fn => (r fn).reads)).sum,
       (order.map (fun fn => (r fn).writes)).sum,
       order.map r⟩ := by
  unfold buildOutput
  rw [foldl_addReport_spec]
  simp [emptyOutput]

/-- Entries accumulated by a traversal. -/
theorem worklist_entries (U : Finset ℕ) (succs : ℕ → List ℕ)
    (comb : List ℕ → List ℕ → List ℕ) (look : ℕ → Counts)
    (v : Finset ℕ) (work : List ℕ) (pr : ProcessReport) :
    (worklist U succs comb look v work pr).2.entries =
      pr.entries + ∑ x ∈ (worklist U succs comb look v work pr).1 \ v, (look x).entries :=
  worklist_report U succs comb look (fun p => p.entries) (fun n => (look n).entries)
    (fun _ _ => rfl) v work pr

/-- Exits accumulated by a traversal. -/
theorem worklist_exits (U : Finset ℕ) (succs : ℕ → List ℕ)
    (comb : List ℕ → List ℕ → List ℕ) (look : ℕ → Counts)
    (v : Finset ℕ) (work : List ℕ) (pr : ProcessReport) :
    (worklist U succs comb look v work pr).2.exits =
      pr.exits + ∑ x ∈ (worklist U succs comb look v work pr).1 \ v, (look x).exits :=
  worklist_report U succs comb look (fun p => p.exits) (fun n => (look n).exits)
    (fun _ _ => rfl) v work pr

/-- Reads accumulated by a traversal. -/
theorem worklist_reads (U : Finset ℕ) (succs : ℕ → List ℕ)
    (comb : List ℕ → List ℕ → List ℕ) (look : ℕ → Counts)
    (v : Finset ℕ) (work : List ℕ) (pr : ProcessReport) :
    (worklist U succs comb look v work pr).2.reads =
      pr.reads + ∑ x ∈ (worklist U succs comb look v work pr).1 \ v, (look x).reads :=
  worklist_report U succs comb look (fun p => p.reads) (fun n => (look n).reads)
    (fun _ _ => rfl) v work pr

/-- Writes accumulated by a traversal. -/
theorem worklist_writes (U : Finset ℕ) (succs : ℕ → List ℕ)
    (comb : List ℕ → List ℕ → List ℕ) (look : ℕ → Counts)
    (v : Finset ℕ) (work : List ℕ) (pr : ProcessReport) :
    (worklist U succs comb look v work pr).2.writes =
      pr.writes + ∑ x ∈ (worklist U succs comb look v work pr).1 \ v, (look x).writes :=
  worklist_report U succs comb look (fun p => p.writes) (fun n => (look n).writes)
    (fun _ _ => rfl) v work pr

/-- The distinct-function counter equals the number of newly visited
functions. -/
theorem worklist_funcs (U : Finset ℕ) (succs : ℕ → List ℕ)
    (comb : List ℕ → List ℕ → List ℕ) (look : ℕ → Counts)
    (v : Finset ℕ) (work : List ℕ) (pr : ProcessReport) :
    (worklist U succs comb look v work pr).2.funcs =
      pr.funcs + ((worklist U succs comb look v work pr).1 \ v).card := by
  have h := worklist_report U succs comb look (fun p => p.funcs) (fun _ => 1)
    (fun _ _ => rfl) v work pr
  rw [h, Finset.sum_const, smul_eq_mul, mul_one]

/-- The initial report has zero counts. -/
theorem initReport_zero (P : Program) (fn : ℕ) :
    (initReport P fn).entries = 0 ∧ (initReport P fn).exits = 0 ∧
    (initReport P fn).reads = 0 ∧ (initReport P fn).writes = 0 ∧
    (initReport P fn).funcs = 0 := by
  unfold initReport
  cases P.find fn <;> exact ⟨rfl, rfl, rfl, rfl, rfl⟩

/-- Totals of a built output, read back from its own process list. -/
theorem buildOutput_totals (r : ℕ → ProcessReport) (order : List ℕ) :
    (buildOutput r order).totalEntries
        = ((buildOutput r order).processes.map (fun p => p.entries)).sum ∧
      (buildOutput r order).totalExits
        = ((buildOutput r order).processes.map (fun p => p.exits)).sum ∧
      (buildOutput r order).totalReads
        = ((buildOutput r order).processes.map (fun p => p.reads)).sum ∧
      (buildOutput r order).totalWrites
        = ((buildOutput r order).processes.map (fun p => p.writes)).sum := by
  rw [buildOutput_spec]
  simp [List.map_map]
  exact ⟨rfl, rfl, rfl, rfl⟩

/-- Claim C2: for every run that produces an Output, each of the four
total fields equals the sum of the corresponding field over all process
reports of that Output. -/
theorem claim2_totals_consistency (P : Program) (mode : Bool)
    (gres : Except String CallGraph) (order : List ℕ) (out : Output)
    (h : run P mode gres order = Except.ok out) :
    out.totalEntries = (out.processes.map (fun p => p.entries)).sum ∧
    out.totalExits = (out.processes.map (fun p => p.exits)).sum ∧
    out.totalReads = (out.processes.map (fun p => p.reads)).sum ∧
    out.totalWrites = (out.processes.map (fun p => p.writes)).sum := by
  unfold run at h
  cases mode with
  | false =>
    simp only [Bool.false_eq_true, if_false, Except.ok.injEq] at h
    subst h
    exact buildOutput_totals _ order
  | true =>
    simp only [if_true] at h
    cases gres with
    | error e => exact absurd h (by simp)
    | ok g =>
      simp only [Except.ok.injEq] at h
      subst h
      exact buildOutput_totals _ order

/-- Claim C2 witness: the totals identity evaluated on a run over an
empty program. -/
theorem claim2_totals_consistency_witness :
    run ⟨[]⟩ false (Except.error "x") [] = Except.ok emptyOutput ∧
      emptyOutput.totalEntries = (emptyOutput.processes.map (fun p => p.entries)).sum :=
  ⟨rfl, (claim2_totals_consistency ⟨[]⟩ false (Except.error "x") [] emptyOutput rfl).1⟩

/-- Sum of an indicator over a list counts the satisfying elements. -/
theorem sum_map_ite_eq_countP {α : Type} (p : α → Bool) (l : List α) :
    (l.map (fun a => if p a then 1 else 0)).sum = l.countP p := by
  induction l with
  | nil => simp
  | cons a l ih =>
    simp only [List.map_cons, List.sum_cons, List.countP_cons, ih]
    by_cases h : p a = true
    · simp [h]
      omega
    · simp [h]

/-- Local counts as a fold, per field. -/
theorem computeCounts_entries_fold (P : Program) :
    ∀ (l : List CallSite) (c : Counts),
      (l.foldl (fun c cs => addCounts c (siteCounts P cs)) c).entries =
        c.entries + (l.map (fun cs => (siteCounts P cs).entries)).sum := by
  intro l
  induction l with
  | nil => intro c; simp
  | cons cs l ih =>
    intro c
    simp only [List.foldl_cons, List.map_cons, List.sum_cons]
    rw [ih]
    simp [addCounts]
    omega

/-- The entries contribution of one call site is the registration
indicator. -/
theorem siteCounts_entries (P : Program) (cs : CallSite) :
    (siteCounts P cs).entries = if regSite P cs then 1 else 0 := by
  unfold siteCounts regSite
  cases findCallee P cs <;> rfl

/-- Claim C6: every call site whose static callee is classified as a
registration call adds exactly one to the local entries count of its
owning function (the count is the number of such sites), and the count
is unchanged when the argument lists are erased, so it does not depend
on whether a handler could be extracted. -/
theorem claim6_registration_entries (P : Program) (f : Func) :
    (computeCounts P f).entries = f.callSites.countP (regSite P) ∧
      (computeCounts P (eraseArgs f)).entries = (computeCounts P f).entries := by
  have hbase : ∀ (l : List CallSite),
      (l.foldl (fun c cs => addCounts c (siteCounts P cs)) {}).entries = l.countP (regSite P) := by
    intro l
    rw [computeCounts_entries_fold]
    have : (l.map (fun cs => (siteCounts P cs).entries)).sum = l.countP (regSite P) := by
      rw [show (fun cs => (siteCounts P cs).entries)
            = (fun cs => if regSite P cs then 1 else 0) from funext (siteCounts_entries P)]
      exact sum_map_ite_eq_countP (regSite P) l
    rw [this]
    simp
  constructor
  · exact hbase f.callSites
  · unfold computeCounts eraseArgs
    rw [hbase, hbase, List.countP_map]
    rfl

/-- Claim C7: a call target whose (package path, name) exactly matches a
rule-table entry is always labeled with that category, for each of the
four category matchers, regardless of the fallback heuristics. -/
theorem claim7_exact_match_labels (tbl : RuleTable) (f : Func)
    (h : tableMatch tbl f.pkgPath f.name = true) :
    isRegistrationFunctionT tbl f = true ∧ matchesReadT tbl f = true ∧
      matchesWriteT tbl f = true ∧ matchesExitT tbl f = true := by
  unfold isRegistrationFunctionT matchesReadT matchesWriteT matchesExitT
  simp [h]

/-- Claim C7 witness: os.Open matches the read table exactly (its bare
name matches no read fallback fragment), and the matcher labels it. -/
theorem claim7_exact_match_labels_witness :
    tableMatch readFuncs "os" "Open" = true ∧
      matchesReadT readFuncs ⟨1, "os", "Open", false, []⟩ = true :=
  ⟨rfl, (claim7_exact_match_labels readFuncs ⟨1, "os", "Open", false, []⟩ rfl).2.1⟩

/-- Claim C9: in pointer mode a failed callgraph construction aborts the
run with that error and no Output is produced, while in static mode the
run always produces an Output, whatever the callgraph result was. -/
theorem claim9_graph_failure_fatal (P : Program) (e : String)
    (gres : Except String CallGraph) (order : List ℕ) :
    run P true (Except.error e) order = Except.error e ∧
      run P false gres order = Except.ok (buildOutput (fun fn => traverseStatic P fn) order) :=
  ⟨rfl, rfl⟩

/-- Full specification of a rooted traversal: the visited set is the
reachable set of the root, and each report metric is the corresponding
local count summed once per visited function, with the function counter
equal to the number of visited functions. -/
theorem rootTraversal_spec (U : Finset ℕ) (succs : ℕ → List ℕ)
    (comb : List ℕ → List ℕ → List ℕ) (P : Program)
    (hcomb : ∀ (x : ℕ) (a b : List ℕ), x ∈ comb a b ↔ x ∈ a ∨ x ∈ b)
    (hsucc : ∀ n c, c ∈ succs n → c ∈ U)
    (fn : ℕ) (hfn : fn ∈ U) :
    (∀ x, x ∈ (worklist U succs comb (lookCounts P) ∅ [fn] (initReport P fn)).1 ↔
        Relation.ReflTransGen (fun a b => b ∈ succs a) fn x) ∧
    (worklist U succs comb (lookCounts P) ∅ [fn] (initReport P fn)).2.entries
      = ∑ x ∈ (worklist U succs comb (lookCounts P) ∅ [fn] (initReport P fn)).1,
          (lookCounts P x).entries ∧
    (worklist U succs comb (lookCounts P) ∅ [fn] (initReport P fn)).2.exits
      = ∑ x ∈ (worklist U succs comb (lookCounts P) ∅ [fn] (initReport P fn)).1,
          (lookCounts P x).exits ∧
    (worklist U succs comb (lookCounts P) ∅ [fn] (initReport P fn)).2.reads
      = ∑ x ∈ (worklist U succs comb (lookCounts P) ∅ [fn] (initReport P fn)).1,
          (lookCounts P x).reads ∧
    (worklist U succs comb (lookCounts P) ∅ [fn] (initReport P fn)).2.writes
      = ∑ x ∈ (worklist U succs comb (lookCounts P) ∅ [fn] (initReport P fn)).1,
          (lookCounts P x).writes ∧
    (worklist U succs comb (lookCounts P) ∅ [fn] (initReport P fn)).2.funcs
      = (worklist U succs comb (lookCounts P) ∅ [fn] (initReport P fn)).1.card := by
  obtain ⟨he, hx, hr, hw, hf⟩ := initReport_zero P fn
  refine ⟨worklist_visited_char U succs comb (lookCounts P) hcomb hsucc fn _ hfn,
    ?_, ?_, ?_, ?_, ?_⟩
  · rw [worklist_entries, Finset.sdiff_empty, he, Nat.zero_add]
  · rw [worklist_exits, Finset.sdiff_empty, hx, Nat.zero_add]
  · rw [worklist_reads, Finset.sdiff_empty, hr, Nat.zero_add]
  · rw [worklist_writes, Finset.sdiff_empty, hw, Nat.zero_add]
  · rw [worklist_funcs, Finset.sdiff_empty, hf, Nat.zero_add]

/-- Claim C1: under either resolution strategy, a traversal from an
entry visits exactly the functions reachable from it (however many call
paths, including cycles, lead to them), and the resulting report is the
local counts summed exactly once per visited function, with
functions_included incremented exactly once per visited function. -/
theorem claim1_counts_once_per_entry (P : Program) (g : CallGraph) (fn root : ℕ)
    (hP : wfProgram P = true) (hfn : fn ∈ P.ids)
    (hg : wfGraph g = true) (hroot : root ∈ nodeIds g) :
    ((∀ x, x ∈ (traverseStaticFull P fn).1 ↔
        Relation.ReflTransGen (fun a b => b ∈ staticSuccs P a) fn x) ∧
      (traverseStatic P fn).entries
        = ∑ x ∈ (traverseStaticFull P fn).1, (lookCounts P x).entries ∧
      (traverseStatic P fn).exits
        = ∑ x ∈ (traverseStaticFull P fn).1, (lookCounts P x).exits ∧
      (traverseStatic P fn).reads
        = ∑ x ∈ (traverseStaticFull P fn).1, (lookCounts P x).reads ∧
      (traverseStatic P fn).writes
        = ∑ x ∈ (traverseStaticFull P fn).1, (lookCounts P x).writes ∧
      (traverseStatic P fn).funcs = (traverseStaticFull P fn).1.card) ∧
    ((∀ x, x ∈ (wpProcessFull P g root).1 ↔
        Relation.ReflTransGen (fun a b => b ∈ succsOf g a) root x) ∧
      (wpProcess P g root).entries
        = ∑ x ∈ (wpProcessFull P g root).1, (lookCounts P x).entries ∧
      (wpProcess P g root).exits
        = ∑ x ∈ (wpProcessFull P g root).1, (lookCounts P x).exits ∧
      (wpProcess P g root).reads
        = ∑ x ∈ (wpProcessFull P g root).1, (lookCounts P x).reads ∧
      (wpProcess P g root).writes
        = ∑ x ∈ (wpProcessFull P g root).1, (lookCounts P x).writes ∧
      (wpProcess P g root).funcs = (wpProcessFull P g root).1.card) := by
  constructor
  · have h := rootTraversal_spec P.ids (staticSuccs P) combStack P combStack_mem
      (wfProgram_staticSuccs P hP) fn hfn
    exact h
  · have hwp : wpProcessFull P g root =
        worklist (nodeIds g) (succsOf g) combQueue (lookCounts P) ∅ [root]
          (initReport P root) := by
      unfold wpProcessFull
      rw [if_pos hroot]
    have h := rootTraversal_spec (nodeIds g) (succsOf g) combQueue P combQueue_mem
      (wfGraph_succsOf g hg) root hroot
    rw [show wpProcess P g root = (wpProcessFull P g root).2 from rfl, hwp]
    exact h

/-- A path along static callee edges from a callgraph node lifts to a
path along callgraph edges, when the graph contains every static edge
out of its nodes. -/
theorem static_reach_lift (P : Program) (g : CallGraph) (root : ℕ)
    (hg : wfGraph g = true) (hroot : root ∈ nodeIds g)
    (hstat : ∀ n ∈ nodeIds g, ∀ c ∈ staticSuccs P n, c ∈ succsOf g n) :
    ∀ x, Relation.ReflTransGen (fun a b => b ∈ staticSuccs P a) root x →
      Relation.ReflTransGen (fun a b => b ∈ succsOf g a) root x ∧ x ∈ nodeIds g := by
  intro x h
  induction h with
  | refl => exact ⟨Relation.ReflTransGen.refl, hroot⟩
  | tail hab hbc ih =>
    have hedge := hstat _ ih.2 _ hbc
    exact ⟨Relation.ReflTransGen.tail ih.1 hedge, wfGraph_succsOf g hg _ _ hedge⟩

/-- Claim C3: when the precomputed callgraph contains every static edge
out of its nodes, the whole-program strategy reaches a superset of the
functions the static strategy reaches from the same entry, and each of
the four metrics and the distinct-function count of its report is at
least the static value. -/
theorem claim3_wholeprogram_superset (P : Program) (g : CallGraph) (root : ℕ)
    (hP : wfProgram P = true) (hg : wfGraph g = true) (hroot : root ∈ P.ids)
    (hstat : ∀ n ∈ nodeIds g, ∀ c ∈ staticSuccs P n, c ∈ succsOf g n) :
    (traverseStaticFull P root).1 ⊆ (wpProcessFull P g root).1 ∧
    (traverseStatic P root).entries ≤ (wpProcess P g root).entries ∧
    (traverseStatic P root).exits ≤ (wpProcess P g root).exits ∧
    (traverseStatic P root).reads ≤ (wpProcess P g root).reads ∧
    (traverseStatic P root).writes ≤ (wpProcess P g root).writes ∧
    (traverseStatic P root).funcs ≤ (wpProcess P g root).funcs := by
  by_cases hnode : root ∈ nodeIds g
  · obtain ⟨hcharS, heS, hxS, hrS, hwS, hfS⟩ :=
      rootTraversal_spec P.ids (staticSuccs P) combStack P combStack_mem
        (wfProgram_staticSuccs P hP) root hroot
    have hwpFull : wpProcessFull P g root =
        worklist (nodeIds g) (succsOf g) combQueue (lookCounts P) ∅ [root]
          (initReport P root) := by
      unfold wpProcessFull
      rw [if_pos hnode]
    obtain ⟨hcharG, heG, hxG, hrG, hwG, hfG⟩ :=
      rootTraversal_spec (nodeIds g) (succsOf g) combQueue P combQueue_mem
        (wfGraph_succsOf g hg) root hnode
    have hsub : (traverseStaticFull P root).1 ⊆ (wpProcessFull P g root).1 := by
      intro x hx
      rw [hwpFull]
      have hreach := (hcharS x).mp hx
      exact ((rootTraversal_spec (nodeIds g) (succsOf g) combQueue P combQueue_mem
        (wfGraph_succsOf g hg) root hnode).1 x).mpr
        (static_reach_lift P g root hg hnode hstat x hreach).1
    refine ⟨hsub, ?_, ?_, ?_, ?_, ?_⟩
    · rw [show traverseStatic P root = (traverseStaticFull P root).2 from rfl]
      rw [show wpProcess P g root = (wpProcessFull P g root).2 from rfl, hwpFull]
      rw [show (traverseStaticFull P root).2.entries
          = ∑ x ∈ (traverseStaticFull P root).1, (lookCounts P x).entries from heS, heG]
      apply Finset.sum_le_sum_of_subset
      rw [← hwpFull]
      exact hsub
    · rw [show traverseStatic P root = (traverseStaticFull P root).2 from rfl]
      rw [show wpProcess P g root = (wpProcessFull P g root).2 from rfl, hwpFull]
      rw [show (traverseStaticFull P root).2.exits
          = ∑ x ∈ (traverseStaticFull P root).1, (lookCounts P x).exits from hxS, hxG]
      apply Finset.sum_le_sum_of_subset
      rw [← hwpFull]
      exact hsub
    · rw [show traverseStatic P root = (traverseStaticFull P root).2 from rfl]
      rw [show wpProcess P g root = (wpProcessFull P g root).2 from rfl, hwpFull]
      rw [show (traverseStaticFull P root).2.reads
          = ∑ x ∈ (traverseStaticFull P root).1, (lookCounts P x).reads from hrS, hrG]
      apply Finset.sum_le_sum_of_subset
      rw [← hwpFull]
      exact hsub
    · rw [show traverseStatic P root = (traverseStaticFull P root).2 from rfl]
      rw [show wpProcess P g root = (wpProcessFull P g root).2 from rfl, hwpFull]
      rw [show (traverseStaticFull P root).2.writes
          = ∑ x ∈ (traverseStaticFull P root).1, (lookCounts P x).writes from hwS, hwG]
      apply Finset.sum_le_sum_of_subset
      rw [← hwpFull]
      exact hsub
    · rw [show traverseStatic P root = (traverseStaticFull P root).2 from rfl]
      rw [show wpProcess P g root = (wpProcessFull P g root).2 from rfl, hwpFull]
      rw [show (traverseStaticFull P root).2.funcs
          = (traverseStaticFull P root).1.card from hfS, hfG]
      apply Finset.card_le_card
      rw [← hwpFull]
      exact hsub
  · have hwpFull : wpProcessFull P g root = traverseStaticFull P root := by
      unfold wpProcessFull
      rw [if_neg hnode]
    have hwp : wpProcess P g root = traverseStatic P root := by
      unfold wpProcess traverseStatic
      rw [hwpFull]
    rw [hwpFull, hwp]
    exact ⟨Finset.Subset.refl _, le_refl _, le_refl _, le_refl _, le_refl _, le_refl _⟩

/-- Claim C8: in pointer mode with a successfully built callgraph, the
run reports one process per enumerated entry; an entry without a
callgraph node gets exactly the static traversal report, while an entry
with a node is processed by BFS over the callgraph. -/
theorem claim8_missing_node_falls_back (P : Program) (g : CallGraph) (order : List ℕ) :
    run P true (Except.ok g) order = Except.ok (buildOutput (wpProcess P g) order) ∧
    (run P true (Except.ok g) order).map (fun o => o.processes)
      = Except.ok (order.map (wpProcess P g)) ∧
    (∀ fn, fn ∉ nodeIds g → wpProcess P g fn = traverseStatic P fn) ∧
    (∀ fn, fn ∈ nodeIds g → wpProcessFull P g fn =
      worklist (nodeIds g) (succsOf g) combQueue (lookCounts P) ∅ [fn] (initReport P fn)) := by
  refine ⟨rfl, ?_, ?_, ?_⟩
  · rw [show run P true (Except.ok g) order
      = Except.ok (buildOutput (wpProcess P g) order) from rfl]
    rw [buildOutput_spec]
    rfl
  · intro fn h
    unfold wpProcess wpProcessFull traverseStatic
    rw [if_neg h]
  · intro fn h
    unfold wpProcessFull
    rw [if_pos h]

/-- Claim C10: a function without a localCounts entry (a non-member,
such as an anonymous closure body) that is visited by the static
traversal contributes zero to each of the four metrics of the report
(removing it from the visited sum changes nothing) while still
incrementing functions_included by one. -/
theorem claim10_nonmember_contributes_nothing (P : Program) (fn x : ℕ) (f : Func)
    (hP : wfProgram P = true) (hfn : fn ∈ P.ids)
    (hx : x ∈ (traverseStaticFull P fn).1)
    (hfind : P.find x = some f) (hmem : f.isMember = false) :
    localCounts P x = none ∧
    (traverseStatic P fn).entries
      = ∑ y ∈ (traverseStaticFull P fn).1.erase x, (lookCounts P y).entries ∧
    (traverseStatic P fn).exits
      = ∑ y ∈ (traverseStaticFull P fn).1.erase x, (lookCounts P y).exits ∧
    (traverseStatic P fn).reads
      = ∑ y ∈ (traverseStaticFull P fn).1.erase x, (lookCounts P y).reads ∧
    (traverseStatic P fn).writes
      = ∑ y ∈ (traverseStaticFull P fn).1.erase x, (lookCounts P y).writes ∧
    (traverseStatic P fn).funcs = ((traverseStaticFull P fn).1.erase x).card + 1 := by
  have hnone : localCounts P x = none := by
    unfold localCounts
    rw [hfind]
    simp [hmem]
  have hzero : lookCounts P x = {} := by
    unfold lookCounts
    rw [hnone]
    rfl
  obtain ⟨_, he, hxx, hr, hw, hf⟩ :=
    rootTraversal_spec P.ids (staticSuccs P) combStack P combStack_mem
      (wfProgram_staticSuccs P hP) fn hfn
  have he' : (traverseStatic P fn).entries
      = ∑ y ∈ (traverseStaticFull P fn).1, (lookCounts P y).entries := he
  have hxx' : (traverseStatic P fn).exits
      = ∑ y ∈ (traverseStaticFull P fn).1, (lookCounts P y).exits := hxx
  have hr' : (traverseStatic P fn).reads
      = ∑ y ∈ (traverseStaticFull P fn).1, (lookCounts P y).reads := hr
  have hw' : (traverseStatic P fn).writes
      = ∑ y ∈ (traverseStaticFull P fn).1, (lookCounts P y).writes := hw
  have hf' : (traverseStatic P fn).funcs = (traverseStaticFull P fn).1.card := hf
  refine ⟨hnone, ?_, ?_, ?_, ?_, ?_⟩
  · rw [he']
    exact (Finset.sum_erase _ (by rw [hzero])).symm
  · rw [hxx']
    exact (Finset.sum_erase _ (by rw [hzero])).symm
  · rw [hr']
    exact (Finset.sum_erase _ (by rw [hzero])).symm
  · rw [hw']
    exact (Finset.sum_erase _ (by rw [hzero])).symm
  · rw [hf']
    exact (Finset.card_erase_add_one hx).symm

/-- Outputs built from two enumerations of the same set agree up to
process order. -/
theorem buildOutput_perm (r : ℕ → ProcessReport) (o1 o2 : List ℕ) (h : o1.Perm o2) :
    outputAgree (buildOutput r o1) (buildOutput r o2) := by
  rw [buildOutput_spec, buildOutput_spec]
  exact ⟨(h.map _).sum_eq, (h.map _).sum_eq, (h.map _).sum_eq, (h.map _).sum_eq, h.map r⟩

/-- Claim C4 (amended): for any two enumerations of the entry set, the
run is bit-identical when the enumeration orders coincide, aborts
identically when the pointer-mode graph construction failed, and
otherwise yields Outputs with equal totals and the same multiset of
process reports; the order of the processes list follows the
enumeration order, which the implementation does not fix. -/
theorem claim4_amended_deterministic_up_to_order (P : Program) (mode : Bool)
    (gres : Except String CallGraph) (o1 o2 : List ℕ)
    (h1 : IsEnum o1 (entrySet P)) (h2 : IsEnum o2 (entrySet P)) :
    (o1 = o2 → run P mode gres o1 = run P mode gres o2) ∧
    (∀ e, gres = Except.error e → mode = true → run P mode gres o1 = run P mode gres o2) ∧
    (∀ out1 out2, run P mode gres o1 = Except.ok out1 → run P mode gres o2 = Except.ok out2 →
      outputAgree out1 out2) := by
  have hperm : o1.Perm o2 :=
    List.perm_of_nodup_nodup_toFinset_eq h1.1 h2.1 (h1.2.trans h2.2.symm)
  refine ⟨fun h => by rw [h], fun e he hm => by rw [he, hm]; rfl, ?_⟩
  intro out1 out2 hr1 hr2
  unfold run at hr1 hr2
  cases mode with
  | false =>
    simp only [Bool.false_eq_true, if_false, Except.ok.injEq] at hr1 hr2
    subst hr1
    subst hr2
    exact buildOutput_perm _ o1 o2 hperm
  | true =>
    simp only [if_true] at hr1 hr2
    cases gres with
    | error e => exact absurd hr1 (by simp)
    | ok g =>
      simp only [Except.ok.injEq] at hr1 hr2
      subst hr1
      subst hr2
      exact buildOutput_perm _ o1 o2 hperm

/-- Static traversal of the C5 scenario, evaluated: the report carries
entries 0 (no registration call), exits 1, reads 1, writes 1, and
functions_included 4 (main plus the three visited external callees). -/
theorem traverseStatic_Pex1_eval :
    traverseStatic Pex1 0 = ⟨"main.main", "main.main", 0, 1, 1, 1, 4⟩ := by
  unfold traverseStatic traverseStaticFull
  rw [worklist_cons_new _ _ _ _ _ _ _ _ (by decide) (by decide)]
  show (worklist Pex1.ids (staticSuccs Pex1) combStack (lookCounts Pex1)
    {0} [3, 2, 1] ⟨"main.main", "main.main", 0, 1, 1, 1, 1⟩).2 = _
  rw [worklist_cons_new _ _ _ _ _ _ _ _ (by decide) (by decide)]
  show (worklist Pex1.ids (staticSuccs Pex1) combStack (lookCounts Pex1)
    {3, 0} [2, 1] ⟨"main.main", "main.main", 0, 1, 1, 1, 2⟩).2 = _
  rw [worklist_cons_new _ _ _ _ _ _ _ _ (by decide) (by decide)]
  show (worklist Pex1.ids (staticSuccs Pex1) combStack (lookCounts Pex1)
    {2, 3, 0} [1] ⟨"main.main", "main.main", 0, 1, 1, 1, 3⟩).2 = _
  rw [worklist_cons_new _ _ _ _ _ _ _ _ (by decide) (by decide)]
  show (worklist Pex1.ids (staticSuccs Pex1) combStack (lookCounts Pex1)
    {1, 2, 3, 0} [] ⟨"main.main", "main.main", 0, 1, 1, 1, 4⟩).2 = _
  rw [worklist_nil]

/-- Static traversal of Pex2 from its main entry, evaluated. -/
theorem traverseStatic_Pex2_main_eval :
    traverseStatic Pex2 0 = ⟨"main.main", "main.main", 1, 0, 0, 0, 2⟩ := by
  unfold traverseStatic traverseStaticFull
  rw [worklist_cons_new _ _ _ _ _ _ _ _ (by decide) (by decide)]
  show (worklist Pex2.ids (staticSuccs Pex2) combStack (lookCounts Pex2)
    {0} [2] ⟨"main.main", "main.main", 1, 0, 0, 0, 1⟩).2 = _
  rw [worklist_cons_new _ _ _ _ _ _ _ _ (by decide) (by decide)]
  show (worklist Pex2.ids (staticSuccs Pex2) combStack (lookCounts Pex2)
    {2, 0} [] ⟨"main.main", "main.main", 1, 0, 0, 0, 2⟩).2 = _
  rw [worklist_nil]

/-- Static traversal of Pex2 from the registered handler, evaluated. -/
theorem traverseStatic_Pex2_handler_eval :
    traverseStatic Pex2 1 = ⟨"app.h", "app.h", 0, 0, 0, 0, 1⟩ := by
  unfold traverseStatic traverseStaticFull
  rw [worklist_cons_new _ _ _ _ _ _ _ _ (by decide) (by decide)]
  show (worklist Pex2.ids (staticSuccs Pex2) combStack (lookCounts Pex2)
    {1} [] ⟨"app.h", "app.h", 0, 0, 0, 0, 1⟩).2 = _
  rw [worklist_nil]

/-- Claim C5 counterexample: on the scenario program (one file-open
read, one formatted write, one process exit, no other calls), the static
run yields entries 0 — a registration-free entry produces no entry
events — and functions_included 4, because the traversal also visits
the three external callees; the run does not produce the report the
claim describes. -/
theorem claim5_counterexample :
    IsEnum [0] (entrySet Pex1) ∧
    run Pex1 false (Except.error "e") [0]
      = Except.ok ⟨0, 1, 1, 1, [⟨"main.main", "main.main", 0, 1, 1, 1, 4⟩]⟩ ∧
    (⟨"main.main", "main.main", 0, 1, 1, 1, 4⟩ : ProcessReport)
      ≠ ⟨"main.main", "main.main", 1, 1, 1, 1, 1⟩ := by
  refine ⟨by decide, ?_, by decide⟩
  show Except.ok (buildOutput (fun fn => traverseStatic Pex1 fn) [0]) = _
  rw [show buildOutput (fun fn => traverseStatic Pex1 fn) [0]
      = addReport emptyOutput (traverseStatic Pex1 0) from rfl]
  rw [traverseStatic_Pex1_eval]
  rfl

/-- Claim C5 (amended): the scenario program yields a single
ProcessReport with entries 0, exits 1, reads 1, writes 1 and
functions_included 4 (the entry function plus the three external callee
stubs visited by the traversal); its local counts are exits 1, reads 1,
writes 1 and entries 0. -/
theorem claim5_amended_scenario :
    entrySet Pex1 = {0} ∧
    computeCounts Pex1 mainFex1 = ⟨0, 1, 1, 1⟩ ∧
    run Pex1 false (Except.error "e") [0]
      = Except.ok ⟨0, 1, 1, 1, [⟨"main.main", "main.main", 0, 1, 1, 1, 4⟩]⟩ := by
  refine ⟨by decide, by decide, ?_⟩
  show Except.ok (buildOutput (fun fn => traverseStatic Pex1 fn) [0]) = _
  rw [show buildOutput (fun fn => traverseStatic Pex1 fn) [0]
      = addReport emptyOutput (traverseStatic Pex1 0) from rfl]
  rw [traverseStatic_Pex1_eval]
  rfl

/-- Claim C4 counterexample: two runs over the same program with the
same strategy and rule tables, differing only in the (unspecified) map
iteration order of the entry set, produce Outputs whose process lists
are ordered differently, so the Output is not bit-identical. -/
theorem claim4_counterexample :
    IsEnum [0, 1] (entrySet Pex2) ∧ IsEnum [1, 0] (entrySet Pex2) ∧
    run Pex2 false (Except.error "e") [0, 1] ≠ run Pex2 false (Except.error "e") [1, 0] := by
  refine ⟨by decide, by decide, ?_⟩
  show Except.ok (buildOutput (fun fn => traverseStatic Pex2 fn) [0, 1])
      ≠ Except.ok (buildOutput (fun fn => traverseStatic Pex2 fn) [1, 0])
  rw [show buildOutput (fun fn => traverseStatic Pex2 fn) [0, 1]
      = addReport (addReport emptyOutput (traverseStatic Pex2 0)) (traverseStatic Pex2 1)
      from rfl]
  rw [show buildOutput (fun fn => traverseStatic Pex2 fn) [1, 0]
      = addReport (addReport emptyOutput (traverseStatic Pex2 1)) (traverseStatic Pex2 0)
      from rfl]
  rw [traverseStatic_Pex2_main_eval, traverseStatic_Pex2_handler_eval]
  intro h
  exact absurd (Except.ok.inj h) (by decide)

/-- Claim C1 witness: the specification instantiated on a concrete
program and callgraph. -/
theorem claim1_counts_once_per_entry_witness :
    wfProgram Pex2 = true ∧ (0 : ℕ) ∈ Pex2.ids ∧ wfGraph gEx = true ∧
      (0 : ℕ) ∈ nodeIds gEx ∧
      (traverseStatic Pex2 0).funcs = (traverseStaticFull Pex2 0).1.card :=
  ⟨by decide, by decide, by decide, by decide,
    (claim1_counts_once_per_entry Pex2 gEx 0 0 (by decide) (by decide) (by decide)
      (by decide)).1.2.2.2.2.2⟩

/-- Claim C3 witness: the superset conclusion instantiated on a concrete
program and callgraph containing the static edges. -/
theorem claim3_wholeprogram_superset_witness :
    wfProgram Pex2 = true ∧ wfGraph gEx = true ∧ (0 : ℕ) ∈ Pex2.ids ∧
      (∀ n ∈ nodeIds gEx, ∀ c ∈ staticSuccs Pex2 n, c ∈ succsOf gEx n) ∧
      (traverseStatic Pex2 0).entries ≤ (wpProcess Pex2 gEx 0).entries :=
  ⟨by decide, by decide, by decide, by decide,
    (claim3_wholeprogram_superset Pex2 gEx 0 (by decide) (by decide) (by decide)
      (by decide)).2.1⟩

/-- Claim C4 (amended) witness: two concrete enumerations of the same
entry set yield agreeing outputs. -/
theorem claim4_amended_deterministic_up_to_order_witness :
    IsEnum [0, 1] (entrySet Pex2) ∧ IsEnum [1, 0] (entrySet Pex2) ∧
      outputAgree (buildOutput (fun fn => traverseStatic Pex2 fn) [0, 1])
        (buildOutput (fun fn => traverseStatic Pex2 fn) [1, 0]) :=
  ⟨by decide, by decide,
    (claim4_amended_deterministic_up_to_order Pex2 false (Except.error "e") [0, 1] [1, 0]
      (by decide) (by decide)).2.2 _ _ rfl rfl⟩

/-- Claim C8 witness: a concrete entry without a callgraph node is
processed by the static traversal. -/
theorem claim8_missing_node_falls_back_witness :
    (1 : ℕ) ∉ nodeIds gEx2 ∧ (0 : ℕ) ∈ nodeIds gEx2 ∧
      wpProcess Pex2 gEx2 1 = traverseStatic Pex2 1 :=
  ⟨by decide, by decide,
    (claim8_missing_node_falls_back Pex2 gEx2 [0, 1]).2.2.1 1 (by decide)⟩

/-- Claim C10 witness: the registered anonymous closure body is visited
by its own traversal yet has no localCounts entry. -/
theorem claim10_nonmember_contributes_nothing_witness :
    wfProgram Pex3 = true ∧ (1 : ℕ) ∈ Pex3.ids ∧ Pex3.find 1 = some anonHandlerF ∧
      anonHandlerF.isMember = false ∧ localCounts Pex3 1 = none :=
  ⟨by decide, by decide, rfl, rfl,
    (claim10_nonmember_contributes_nothing Pex3 1 1 anonHandlerF (by decide) (by decide)
      ((worklist_visited_char Pex3.ids (staticSuccs Pex3) combStack (lookCounts Pex3)
        combStack_mem (wfProgram_staticSuccs Pex3 (by decide)) 1 (initReport Pex3 1)
        (by decide) 1).mpr Relation.ReflTransGen.refl)
      rfl rfl).1⟩
